import Mathlib

/-!
# Verification of the claims-GPT backend against its specification

This file gives a shallow embedding, in Lean 4, of the parts of the
`findigital/claims-GPT` backend that the specification's testable claims are
about:

* the surgical JSX patcher `ProjectService._apply_styles_to_jsx` and
  `ProjectService._apply_classname_to_jsx`
  (`backend/app/services/project_service.py`),
* the streaming interaction pipeline of
  `ChatService.process_chat_message_stream`
  (`backend/app/services/chat_service.py`),
* the turn scheduler `selector_func`, the termination condition and the
  state persistence `save_state` / `load_state` of `AgentOrchestrator`
  (`backend/app/agents/orchestrator.py`).

Text is modelled as `List Char` (named `Str` below).  Regular expressions in
the Python source are embedded by functions implementing the exact matching
semantics of each concrete pattern (left-to-right scan, the given alternation
order, greedy/lazy behaviour of the concrete pattern).  Python dictionaries
(insertion ordered) are association lists with insert-or-assign update.
Floating point JSON numbers are outside the model: the state snapshot domain
is JSON values with integer numerals.
-/

namespace Claims
/-- Program text: a Python string as its list of characters. -/
abbrev Str := List Char

/-! ## Characters

Named characters for the delimiters that appear in the embedded patterns. -/

def quoteC : Char := Char.ofNat 34

def apostC : Char := Char.ofNat 39

def backslashC : Char := Char.ofNat 92

def backqC : Char := Char.ofNat 96

def obraceC : Char := Char.ofNat 123

def cbraceC : Char := Char.ofNat 125

def nlC : Char := Char.ofNat 10

def tabC : Char := Char.ofNat 9

def crC : Char := Char.ofNat 13

/-- Python `\s` on ASCII text: space, tab, newline, carriage return,
vertical tab, form feed. -/
def isPySpace (c : Char) : Bool :=
  c = ' ' || c = tabC || c = nlC || c = crC || c = Char.ofNat 11 || c = Char.ofNat 12

/-- Python `\w` on ASCII text: letters, digits, underscore. -/
def isWordC (c : Char) : Bool :=
  (('a' ≤ c) && (c ≤ 'z')) || (('A' ≤ c) && (c ≤ 'Z')) ||
  (('0' ≤ c) && (c ≤ '9')) || c = '_'

def isDigitC (c : Char) : Bool := ('0' ≤ c) && (c ≤ '9')

/-! ## Python string primitives -/

/-- Python substring containment `needle in hay`. -/
def hasSub (needle : Str) : Str → Bool
  | [] => needle.isPrefixOf []
  | c :: t => needle.isPrefixOf (c :: t) || hasSub needle t

/-- Python `hay.split(sep, 1)` when `sep` occurs: the parts before and after
the first occurrence.  `none` when the separator is absent. -/
def splitOnce (sep : Char) : Str → Option (Str × Str)
  | [] => none
  | c :: t =>
    if c = sep then some ([], t)
    else (splitOnce sep t).map (fun p => (c :: p.1, p.2))

/-- Whitespace-delimited tokens, Python `s.split()`: splits on runs of
whitespace and drops empty pieces.  `cur` holds the current token reversed. -/
def pyTokensGo (cur : Str) : Str → List Str
  | [] => if cur = [] then [] else [cur.reverse]
  | c :: t =>
    if isPySpace c then
      if cur = [] then pyTokensGo [] t else cur.reverse :: pyTokensGo [] t
    else pyTokensGo (c :: cur) t

def pyTokens (s : Str) : List Str := pyTokensGo [] s

/-- Python `s.strip()`. -/
def stripPy (s : Str) : Str :=
  ((s.dropWhile isPySpace).reverse.dropWhile isPySpace).reverse

/-- Python `s.split(sep)` (all pieces, empties kept). -/
def splitAllGo (sep : Char) (cur : Str) : Str → List Str
  | [] => [cur.reverse]
  | c :: t =>
    if c = sep then cur.reverse :: splitAllGo sep [] t
    else splitAllGo sep (c :: cur) t

def splitAllOn (sep : Char) (s : Str) : List Str := splitAllGo sep [] s

/-- Python `word.capitalize()`: first character upper-cased, the rest
lower-cased. -/
def capPy : Str → Str
  | [] => []
  | c :: t => c.toUpper :: t.map Char.toLower

/-- `to_camel_case` from `_apply_styles_to_jsx`:
`parts = prop.split("-"); parts[0] + "".join(w.capitalize() for w in parts[1:])`. -/
def toCamel (p : Str) : Str :=
  match splitAllOn '-' p with
  | [] => []
  | h :: t => h ++ (t.map capPy).flatten

/-! ## Insertion-ordered dictionaries (Python `dict`) -/

/-- `m[k] = v` on an insertion-ordered dictionary: replace in place when the
key exists, append otherwise. -/
def dinsert (m : List (Str × Str)) (k v : Str) : List (Str × Str) :=
  match m with
  | [] => [(k, v)]
  | (k0, v0) :: t => if k0 = k then (k0, v) :: t else (k0, v0) :: dinsert t k v

/-- Building a `dict` by assigning a sequence of pairs in order. -/
def dictUpdate (m : List (Str × Str)) (adds : List (Str × Str)) : List (Str × Str) :=
  adds.foldl (fun m p => dinsert m p.1 p.2) m

def dictOfPairs (ps : List (Str × Str)) : List (Str × Str) := dictUpdate [] ps

/-- `react_styles = {to_camel_case(k): v for k, v in style_changes.items()}`. -/
def reactStylesOf (delta : List (Str × Str)) : List (Str × Str) :=
  dictOfPairs (delta.map (fun p => (toCamel p.1, p.2)))

/-! ## Embedded regex pieces of the patcher -/

/-- Selector parsing of `_apply_styles_to_jsx` / `_apply_classname_to_jsx`:
`(tag_name, class_filter, id_filter)`, splitting on the first `.` when one
occurs, else on the first `#`. -/
def parseSelector (sel : Str) : Str × Option Str × Option Str :=
  match splitOnce '.' sel with
  | some p => (p.1, some p.2, none)
  | none =>
    match splitOnce '#' sel with
    | some p => (p.1, none, some p.2)
    | none => (sel, none, none)

/-- The search `re.search(r"(?:>|/>)", content[tag_start:])` followed by
slicing: the tag text through the first `>` (inclusive) and the remainder.
`none` when no `>` occurs (the candidate is skipped). -/
def splitAtGt : Str → Option (Str × Str)
  | [] => none
  | c :: t =>
    if c = '>' then some ([c], t)
    else (splitAtGt t).map (fun p => (c :: p.1, p.2))

/-- Reading a run of characters distinct from `stop`, then consuming the
`stop` character: the run and the remainder after `stop`. -/
def readUntil (stop : Char) : Str → Option (Str × Str)
  | [] => none
  | c :: t =>
    if c = stop then some ([], t)
    else (readUntil stop t).map (fun p => (c :: p.1, p.2))

/-- One match attempt, at the head of `s`, of
`className=(?:"([^"]*)"|{`v`}|{'v'})` (the candidate-filter pattern):
the captured class value. -/
def classAttrAt (s : Str) : Option Str :=
  if (String.toList "className=").isPrefixOf s then
    match s.drop 10 with
    | [] => none
    | c :: t =>
      if c = quoteC then (readUntil quoteC t).map Prod.fst
      else if c = obraceC then
        match t with
        | [] => none
        | d :: u =>
          if d = backqC then
            match readUntil backqC u with
            | some (v, rest) =>
              match rest with
              | e :: _ => if e = cbraceC then some v else none
              | [] => none
            | none => none
          else if d = apostC then
            match readUntil apostC u with
            | some (v, rest) =>
              match rest with
              | e :: _ => if e = cbraceC then some v else none
              | [] => none
            | none => none
          else none
      else none
  else none

/-- `re.search` of the candidate-filter `className` pattern over the tag
text: the first position where the pattern matches, left to right. -/
def findClassAttr : Str → Option Str
  | [] => none
  | c :: t =>
    match classAttrAt (c :: t) with
    | some v => some v
    | none => findClassAttr t

/-- `re.search(rf'id=(?:"{id_filter}"|{{\'{id_filter}\'}})', tag_content)`:
containment of either literal `id="X"` or `id={'X'}`. -/
def idMatches (idf : Str) (t : Str) : Bool :=
  hasSub (String.toList "id=" ++ quoteC :: idf ++ [quoteC]) t ||
  hasSub (String.toList "id=" ++ obraceC :: apostC :: idf ++ [apostC, cbraceC]) t

/-- The candidate filter of both patcher functions: class filter first, then
id filter, then the original-class hint, else accept. -/
def candidateOk (cf idf oc : Option Str) (tagC : Str) : Bool :=
  match cf with
  | some f =>
    match findClassAttr tagC with
    | some v => (pyTokens v).contains f
    | none => false
  | none =>
    match idf with
    | some f => idMatches f tagC
    | none =>
      match oc with
      | some o =>
        match findClassAttr tagC with
        | some v => v == o
        | none => false
      | none => true

/-- The candidate scan of both patcher functions: the occurrences of
`<tag_name` are visited left to right; for each, the tag text runs to the
first `>` (no `>` skips the candidate, and then every later candidate); the
first candidate accepted by the filter is selected.  The result splits the
content into the text before the tag, the tag text, and the text after. -/
def findTarget (tagLit : Str) (ok : Str → Bool) : Str → Option (Str × Str × Str)
  | [] => none
  | c :: rest =>
    match
      (if tagLit.isPrefixOf (c :: rest) then
        match splitAtGt (c :: rest) with
        | some p => if ok p.1 then some (([] : Str), p.1, p.2) else none
        | none => none
      else none) with
    | some r => some r
    | none => (findTarget tagLit ok rest).map (fun r => (c :: r.1, r.2.1, r.2.2))

/-- One match attempt, at the head of `s`, of `style=\{\{([^}]*)\}\}`:
the captured group and the remainder after the whole match. -/
def styleAttrAt (s : Str) : Option (Str × Str) :=
  if (String.toList "style=" ++ [obraceC, obraceC]).isPrefixOf s then
    match (s.drop 8).dropWhile (fun c => c != cbraceC) with
    | a :: b :: rest =>
      if a = cbraceC && b = cbraceC then
        some ((s.drop 8).takeWhile (fun c => c != cbraceC), rest)
      else none
    | _ => none
  else none

/-- `re.search(r'style=\{\{([^}]*)\}\}', tag_content)`: first match's
captured group. -/
def findStyleGroup : Str → Option Str
  | [] => none
  | c :: t =>
    match styleAttrAt (c :: t) with
    | some p => some p.1
    | none => findStyleGroup t

/-- One match attempt, at the head of `s`, of
`(\w+):\s*'([^']*)'` (the style-pair pattern of `re.findall`):
the key/value pair and the remainder after the match. -/
def pairAt (s : Str) : Option ((Str × Str) × Str) :=
  let k := s.takeWhile isWordC
  if k = [] then none
  else
    match s.drop k.length with
    | ':' :: r1 =>
      match r1.dropWhile isPySpace with
      | q :: r3 =>
        if q = apostC then
          match readUntil apostC r3 with
          | some (v, r4) => some ((k, v), r4)
          | none => none
        else none
      | [] => none
    | _ => none

/-- Scan for `re.findall(r"(\w+):\s*'([^']*)'", s)`: all non-overlapping
matches, left to right.  `fuel` bounds the recursion; the wrapper passes the
input length, which `pairAt_length` shows is always enough. -/
def stylePairsGo : Nat → Str → List (Str × Str)
  | 0, _ => []
  | _, [] => []
  | f + 1, c :: t =>
    match pairAt (c :: t) with
    | some p => p.1 :: stylePairsGo f p.2
    | none => stylePairsGo f t

def stylePairs (s : Str) : List (Str × Str) := stylePairsGo s.length s

/-- Serialization `f"{k}: '{v}'"` of one style pair. -/
def stylePairStr (p : Str × Str) : Str :=
  p.1 ++ ':' :: ' ' :: apostC :: (p.2 ++ [apostC])

/-- Python `", ".join pieces`. -/
def joinComma : List Str → Str
  | [] => []
  | [x] => x
  | x :: y :: t => x ++ ',' :: ' ' :: joinComma (y :: t)

def styleStringOf (m : List (Str × Str)) : Str := joinComma (m.map stylePairStr)

/-- `f"style={{{{{style_string}}}}}"`, i.e. the text
`style=` `{` `{` *string* `}` `}`. -/
def styleAttrOf (m : List (Str × Str)) : Str :=
  String.toList "style=" ++ obraceC :: obraceC :: (styleStringOf m ++ [cbraceC, cbraceC])

/-- The full text matched by `style=\{\{([^}]*)\}\}` with captured group
`g`: the shape of a style attribute occurrence inside a tag. -/
def styleWrap (g : Str) : Str :=
  String.toList "style=" ++ obraceC :: obraceC :: (g ++ [cbraceC, cbraceC])

/-- `re.sub(r'style=\{\{[^}]*\}\}', rep, s)`: every match replaced.  `fuel`
bounds the recursion; the wrapper passes the input length, which
`styleAttrAt_length` shows is always enough. -/
def subStyleAllGo (rep : Str) : Nat → Str → Str
  | 0, s => s
  | _, [] => []
  | f + 1, c :: t =>
    match styleAttrAt (c :: t) with
    | some p => rep ++ subStyleAllGo rep f p.2
    | none => c :: subStyleAllGo rep f t

def subStyleAll (rep : Str) (s : Str) : Str := subStyleAllGo rep s.length s

/-- `ProjectService._apply_styles_to_jsx`. -/
def applyStylesToJsx (content sel : Str) (delta : List (Str × Str))
    (origClass : Option Str) : Str :=
  let react := reactStylesOf delta
  let ps := parseSelector sel
  match findTarget ('<' :: ps.1) (candidateOk ps.2.1 ps.2.2 origClass) content with
  | none => content
  | some (pre, t, suf) =>
    let newTag :=
      match findStyleGroup t with
      | some g =>
        let gs := stripPy g
        let existing := if gs = [] then [] else dictOfPairs (stylePairs gs)
        let merged := dictUpdate existing react
        subStyleAll (styleAttrOf merged) t
      | none =>
        t.take (ps.1.length + 1) ++ (' ' :: styleAttrOf react) ++ t.drop (ps.1.length + 1)
    pre ++ newTag ++ suf

/-- One match attempt, at the head of `s`, of
`className=(?:"[^"]*"|\'[^\']*\'|\{[^}]*\})` (the existing-attribute pattern
of `_apply_classname_to_jsx`): the remainder after the whole match. -/
def cnameAttrAt (s : Str) : Option Str :=
  if (String.toList "className=").isPrefixOf s then
    match s.drop 10 with
    | [] => none
    | c :: t =>
      if c = quoteC then (readUntil quoteC t).map Prod.snd
      else if c = apostC then (readUntil apostC t).map Prod.snd
      else if c = obraceC then (readUntil cbraceC t).map Prod.snd
      else none
  else none

/-- `re.search` of the existing-attribute `className` pattern. -/
def hasCnameAttr : Str → Bool
  | [] => false
  | c :: t => (cnameAttrAt (c :: t)).isSome || hasCnameAttr t

/-- `re.sub` of the existing-attribute `className` pattern: every match
replaced by `rep`.  `fuel` bounds the recursion; the wrapper passes the input
length, which `cnameAttrAt_length` shows is always enough. -/
def subCnameAllGo (rep : Str) : Nat → Str → Str
  | 0, s => s
  | _, [] => []
  | f + 1, c :: t =>
    match cnameAttrAt (c :: t) with
    | some r => rep ++ subCnameAllGo rep f r
    | none => c :: subCnameAllGo rep f t

def subCnameAll (rep : Str) (s : Str) : Str := subCnameAllGo rep s.length s

/-- `ProjectService._apply_classname_to_jsx`.  Note: the no-attribute branch
computes the insertion offset from the whole `element_selector`, not from the
parsed tag name. -/
def applyClassnameToJsx (content sel newClass : Str) (origClass : Option Str) : Str :=
  let ps := parseSelector sel
  match findTarget ('<' :: ps.1) (candidateOk ps.2.1 ps.2.2 origClass) content with
  | none => content
  | some (pre, t, suf) =>
    let attr := String.toList "className=" ++ quoteC :: (newClass ++ [quoteC])
    let newTag :=
      if hasCnameAttr t then subCnameAll attr t
      else t.take (sel.length + 1) ++ (' ' :: attr) ++ t.drop (sel.length + 1)
    pre ++ newTag ++ suf

/-! ## JSON values

The persisted team-state snapshot (`AgentOrchestrator.save_state` /
`load_state`) is an opaque JSON document: `json.dump(team_state, f, indent=2,
ensure_ascii=False)` on save and `json.load(f)` on load.  `JVal` is the domain
of such documents; numerals are integers (floating point numbers are outside
the model), objects are insertion-ordered association lists, mirroring Python
dictionaries. -/

inductive JVal where
  | jnull : JVal
  | jbool : Bool → JVal
  | jint : Int → JVal
  | jstr : Str → JVal
  | jarr : List JVal → JVal
  | jobj : List (Str × JVal) → JVal

/-- The hexadecimal digit character for `k < 16`, lower case (Python
`'%04x'` formatting uses lower case). -/
def hexDigC (k : Nat) : Char :=
  if k < 10 then Char.ofNat (48 + k) else Char.ofNat (97 + (k - 10))

/-- One character of JSON string output, as escaped by `json.dumps` with
`ensure_ascii=False`: backslash, quote and the five named control characters
get two-character escapes, the remaining control characters get `\u00xx`,
everything else passes through. -/
def escChar (c : Char) : Str :=
  if c = quoteC then [backslashC, quoteC]
  else if c = backslashC then [backslashC, backslashC]
  else if c = nlC then [backslashC, 'n']
  else if c = tabC then [backslashC, 't']
  else if c = crC then [backslashC, 'r']
  else if c = Char.ofNat 8 then [backslashC, 'b']
  else if c = Char.ofNat 12 then [backslashC, 'f']
  else if c.toNat < 32 then
    [backslashC, 'u', '0', '0', hexDigC (c.toNat / 16), hexDigC (c.toNat % 16)]
  else [c]

/-- A quoted, escaped JSON string literal. -/
def strQuote (s : Str) : Str := quoteC :: (s.flatMap escChar ++ [quoteC])

def digitC (k : Nat) : Char := Char.ofNat (48 + k)

/-- Decimal digits of `n`, most significant first (the digit string of
Python `repr`). -/
def natStr (n : Nat) : Str :=
  if n < 10 then [digitC n]
  else natStr (n / 10) ++ [digitC (n % 10)]
  termination_by n
  decreasing_by exact Nat.div_lt_self (by omega) (by omega)

/-- Python `repr` of an integer. -/
def intStr (i : Int) : Str :=
  if i < 0 then '-' :: natStr i.natAbs else natStr i.natAbs

/-- The indentation prefix written by `json.dump(..., indent=2)` at nesting
depth `d`. -/
def jindent (d : Nat) : Str := List.replicate (2 * d) ' '

mutual

/-- `json.dump(v, indent=2, ensure_ascii=False)` at nesting depth `d`
(item separator `","`, key separator `": "`, the defaults with an indent). -/
def renderVal : Nat → JVal → Str
  | _, .jnull => String.toList "null"
  | _, .jbool true => String.toList "true"
  | _, .jbool false => String.toList "false"
  | _, .jint i => intStr i
  | _, .jstr s => strQuote s
  | _, .jarr [] => String.toList "[]"
  | d, .jarr (x :: xs) =>
    '[' :: nlC :: (jindent (d + 1) ++ renderVal (d + 1) x ++ renderArrTail (d + 1) xs
      ++ nlC :: (jindent d ++ [']']))
  | _, .jobj [] => obraceC :: [cbraceC]
  | d, .jobj (m :: ms) =>
    obraceC :: nlC :: (jindent (d + 1) ++ strQuote m.1 ++ ':' :: ' ' :: renderVal (d + 1) m.2
      ++ renderObjTail (d + 1) ms ++ nlC :: (jindent d ++ [cbraceC]))

/-- Second and later array items: `",\n"`, indentation, the item. -/
def renderArrTail : Nat → List JVal → Str
  | _, [] => []
  | d, x :: xs => ',' :: nlC :: (jindent d ++ renderVal d x ++ renderArrTail d xs)

/-- Second and later object members. -/
def renderObjTail : Nat → List (Str × JVal) → Str
  | _, [] => []
  | d, m :: ms =>
    ',' :: nlC :: (jindent d ++ strQuote m.1 ++ ':' :: ' ' :: renderVal d m.2
      ++ renderObjTail d ms)

end

/-- The file content written by `AgentOrchestrator.save_state`. -/
def pyDumps (v : JVal) : Str := renderVal 0 v

/-! ## JSON parsing (`json.load` / `json.loads`)

Mirrors the strict CPython decoder on the modelled domain: whitespace is
` \t\n\r`, strings reject raw control characters and understand the named
escapes and `\uXXXX`, numbers follow `-?(0|[1-9][0-9]*)` (a following
fraction or exponent would produce a float, which is outside the model, so
the parse is rejected there), and the top level rejects trailing data.
The parser recurses on explicit fuel; `pyLoads` passes the input length + 1,
which the completeness proof shows is always enough for rendered output. -/

def jskipWs : Str → Str
  | [] => []
  | c :: t =>
    if c = ' ' || c = tabC || c = nlC || c = crC then jskipWs t else c :: t

def hexVal (c : Char) : Option Nat :=
  if ('0' ≤ c) && (c ≤ '9') then some (c.toNat - 48)
  else if ('a' ≤ c) && (c ≤ 'f') then some (c.toNat - 97 + 10)
  else if ('A' ≤ c) && (c ≤ 'F') then some (c.toNat - 65 + 10)
  else none

/-- The named escapes of the JSON grammar. -/
def unescC (c : Char) : Option Char :=
  if c = quoteC then some quoteC
  else if c = backslashC then some backslashC
  else if c = '/' then some '/'
  else if c = 'n' then some nlC
  else if c = 't' then some tabC
  else if c = 'r' then some crC
  else if c = 'b' then some (Char.ofNat 8)
  else if c = 'f' then some (Char.ofNat 12)
  else none

/-- String body parsing, after the opening quote (fuel-bounded). -/
def jparseStrGo : Nat → Str → Option (Str × Str)
  | 0, _ => none
  | _, [] => none
  | f + 1, c :: t =>
    if c = quoteC then some ([], t)
    else if c = backslashC then
      match t with
      | [] => none
      | e :: t2 =>
        if e = 'u' then
          match t2 with
          | a :: b :: c2 :: d :: t3 =>
            match hexVal a, hexVal b, hexVal c2, hexVal d with
            | some va, some vb, some vc, some vd =>
              (jparseStrGo f t3).map
                (fun p => (Char.ofNat (((va * 16 + vb) * 16 + vc) * 16 + vd) :: p.1, p.2))
            | _, _, _, _ => none
          | _ => none
        else
          match unescC e with
          | some ch => (jparseStrGo f t2).map (fun p => (ch :: p.1, p.2))
          | none => none
    else if c.toNat < 32 then none
    else (jparseStrGo f t).map (fun p => (c :: p.1, p.2))

def jparseStr (s : Str) : Option (Str × Str) := jparseStrGo s.length s

/-- Digit-run value, most significant first. -/
def digitsVal (ds : Str) : Nat := ds.foldl (fun a c => a * 10 + (c.toNat - 48)) 0

/-- `(0|[1-9][0-9]*)` — a single `0`, or a nonzero-led digit run. -/
def jparseNat (s : Str) : Option (Nat × Str) :=
  match s with
  | [] => none
  | c :: t =>
    if c = '0' then some (0, t)
    else if isDigitC c then
      some (digitsVal (c :: t.takeWhile isDigitC), t.dropWhile isDigitC)
    else none

/-- Rejects a fraction or exponent continuation after an integer part. -/
def floatGuard (s : Str) : Option Str :=
  match s with
  | c :: _ => if c = '.' || c = 'e' || c = 'E' then none else some s
  | [] => some s

/-- An integer numeral with optional leading minus; a following fraction or
exponent would make a float, which the model rejects. -/
def jparseInt (s : Str) : Option (Int × Str) :=
  match s with
  | [] => none
  | c :: t =>
    if c = '-' then
      (jparseNat t).bind (fun p => (floatGuard p.2).map (fun r => (-(p.1 : Int), r)))
    else
      (jparseNat (c :: t)).bind (fun p => (floatGuard p.2).map (fun r => ((p.1 : Int), r)))

mutual

/-- Value parsing; the head of `s` is already significant (callers skip
whitespace).  Dispatch is on the head character, as in the CPython scanner. -/
def jparseVal : Nat → Str → Option (JVal × Str)
  | 0, _ => none
  | f + 1, s =>
    match s with
    | [] => none
    | c :: r =>
      if c = 'n' then
        match r with
        | 'u' :: 'l' :: 'l' :: r2 => some (.jnull, r2)
        | _ => none
      else if c = 't' then
        match r with
        | 'r' :: 'u' :: 'e' :: r2 => some (.jbool true, r2)
        | _ => none
      else if c = 'f' then
        match r with
        | 'a' :: 'l' :: 's' :: 'e' :: r2 => some (.jbool false, r2)
        | _ => none
      else if c = quoteC then (jparseStr r).map (fun p => (.jstr p.1, p.2))
      else if c = '[' then
        match jskipWs r with
        | [] => none
        | c2 :: r2 =>
          if c2 = ']' then some (.jarr [], r2)
          else (jparseArrItems f (c2 :: r2)).map (fun p => (.jarr p.1, p.2))
      else if c = obraceC then
        match jskipWs r with
        | [] => none
        | c2 :: r2 =>
          if c2 = cbraceC then some (.jobj [], r2)
          else (jparseObjItems f (c2 :: r2)).map (fun p => (.jobj p.1, p.2))
      else if c = '-' || isDigitC c then
        (jparseInt (c :: r)).map (fun p => (.jint p.1, p.2))
      else none

/-- One-or-more comma-separated array items, then `]`. -/
def jparseArrItems : Nat → Str → Option (List JVal × Str)
  | 0, _ => none
  | f + 1, s =>
    match jparseVal f s with
    | none => none
    | some (v, r) =>
      match jskipWs r with
      | ',' :: r2 => (jparseArrItems f (jskipWs r2)).map (fun p => (v :: p.1, p.2))
      | ']' :: r2 => some ([v], r2)
      | _ => none

/-- One-or-more comma-separated `"key": value` members, then `}`. -/
def jparseObjItems : Nat → Str → Option (List (Str × JVal) × Str)
  | 0, _ => none
  | f + 1, s =>
    match s with
    | c :: r =>
      if c = quoteC then
        match jparseStr r with
        | none => none
        | some (k, r1) =>
          match jskipWs r1 with
          | ':' :: r2 =>
            match jparseVal f (jskipWs r2) with
            | none => none
            | some (v, r3) =>
              match jskipWs r3 with
              | ',' :: r4 => (jparseObjItems f (jskipWs r4)).map (fun p => ((k, v) :: p.1, p.2))
              | d :: r4 => if d = cbraceC then some ([(k, v)], r4) else none
              | [] => none
          | _ => none
      else none
    | [] => none

end

/-- `json.loads` on the modelled domain: skip leading whitespace, parse one
value, reject trailing non-whitespace. -/
def pyLoads (s : Str) : Option JVal :=
  match jparseVal (s.length + 1) (jskipWs s) with
  | some (v, r) => if jskipWs r = [] then some v else none
  | none => none

/-! ## The session state store (`save_state` / `load_state`)

`save_state` writes `pyDumps snapshot` to the per-project artifact
`.agent_state.json`; `load_state` reads it back.  The artifact store is a map
from project id to file content.  `load_state` mirrors the `try/except`
structure of the source: a missing file logs at info level and returns
`False`; any failure (in particular an unparseable artifact) is caught,
logged through `logger.error`, and `False` is returned. -/

inductive LogLevel where
  | info : LogLevel
  | warning : LogLevel
  | error : LogLevel
deriving DecidableEq

/-- The artifact store: one optional JSON text per project id. -/
abbrev StateStore := Nat → Option Str

/-- `AgentOrchestrator.save_state`: write the pretty-printed document. -/
def saveState (store : StateStore) (projectId : Nat) (snapshot : JVal) : StateStore :=
  fun k => if k = projectId then some (pyDumps snapshot) else store k

/-- `AgentOrchestrator.load_state`: `(loaded?, log level emitted)`.  The
loaded snapshot (when any) is delivered to `main_team.load_state`; we return
it for the round-trip statement. -/
def loadState (store : StateStore) (projectId : Nat) :
    (Bool × Option JVal) × LogLevel :=
  match store projectId with
  | none => ((false, none), .info)
  | some content =>
    match pyLoads content with
    | some v => ((true, some v), .info)
    | none => ((false, none), .error)

/-! ## The streaming interaction pipeline

`ChatService.process_chat_message_stream` classifies each event produced by
`main_team.run_stream` and maintains `agent_interactions` (the interaction
log), a tool-call counter, and incremental persistence
(`save_incremental_state`).  The model records, per event, the sequence of
observable actions: log appends (each of which is also streamed to the
consumer as an `agent_interaction` frame), persistence checkpoints, and
`reload_preview` signals. -/

/-- An interaction-log record (`interaction_data` in the source). -/
inductive RecKind where
  | thought : RecKind
  | toolCall : RecKind
  | toolResponse : RecKind
deriving DecidableEq

structure Interaction where
  agentName : Str
  kind : RecKind
  content : Str
  toolName : Option Str
  toolArgs : Option JVal

/-- A tool call carried by a `ToolCallRequestEvent` (name and the raw
argument text). -/
structure ToolCallReq where
  name : Str
  arguments : Str

/-- A result carried by a `ToolCallExecutionEvent`. -/
structure ToolExecResult where
  name : Str
  content : Str

/-- The raw events consumed from `run_stream`, keyed by the
`type(message).__name__` dispatch of the source. -/
inductive AgentEvent where
  | textMsg : Str → Str → AgentEvent
  | toolCallReqEvent : Str → List ToolCallReq → AgentEvent
  | toolExecEvent : Str → List ToolExecResult → AgentEvent
  | taskResult : AgentEvent

/-- The observable actions of the streaming loop. -/
inductive TraceItem where
  | append : Interaction → TraceItem
  | checkpoint : TraceItem
  | reloadSignal : TraceItem

/-- `json.loads(tool_call.arguments)` with the bare-`except` fallback
`{"raw": str(tool_call.arguments)}`. -/
def parseToolArgs (args : Str) : JVal :=
  match pyLoads args with
  | some v => v
  | none => .jobj [(String.toList "raw", .jstr args)]

def thoughtRec (src content : Str) : Interaction :=
  ⟨src, .thought, content, none, none⟩

def toolCallRec (src : Str) (c : ToolCallReq) : Interaction :=
  ⟨src, .toolCall, String.toList "Calling: " ++ c.name, some c.name,
    some (parseToolArgs c.arguments)⟩

def toolRespRec (r : ToolExecResult) : Interaction :=
  ⟨String.toList "System", .toolResponse, r.content, some r.name, none⟩

/-- Pipeline state: the interaction log and the tool-call counter. -/
structure PipeState where
  log : List Interaction
  toolCalls : Nat

/-- The `TASK_COMPLETED` content filter of the `TextMessage` branch. -/
def taskCompletedSentinel : Str := String.toList "TASK_COMPLETED"

/-- The `for tool_call in message.content` loop of the
`ToolCallRequestEvent` branch: append a `tool_call` record and stream it;
every 10th tool call overall also emits a `reload_preview` signal. -/
def processCalls (src : Str) : PipeState → List ToolCallReq → PipeState × List TraceItem
  | st, [] => (st, [])
  | st, c :: cs =>
    let st1 : PipeState := ⟨st.log ++ [toolCallRec src c], st.toolCalls + 1⟩
    let here := TraceItem.append (toolCallRec src c) ::
      (if st1.toolCalls % 10 = 0 then [TraceItem.reloadSignal] else [])
    let rest := processCalls src st1 cs
    (rest.1, here ++ rest.2)

/-- The `for tool_result in message.content` loop of the
`ToolCallExecutionEvent` branch: append a `tool_response` record per result. -/
def processResults : PipeState → List ToolExecResult → PipeState × List TraceItem
  | st, [] => (st, [])
  | st, r :: rs =>
    let st1 : PipeState := ⟨st.log ++ [toolRespRec r], st.toolCalls⟩
    let rest := processResults st1 rs
    (rest.1, TraceItem.append (toolRespRec r) :: rest.2)

/-- One iteration of the `async for message in run_stream(...)` loop:

* `TextMessage` from a non-user source whose content does not contain
  `TASK_COMPLETED`: append a `thought` record; when the log length is now a
  multiple of 3, checkpoint (`save_incremental_state`);
* `ToolCallRequestEvent`: the per-call loop above;
* `ToolCallExecutionEvent`: the per-result loop above, then one checkpoint;
* `TaskResult`: nothing observable. -/
def processEvent (st : PipeState) : AgentEvent → PipeState × List TraceItem
  | .textMsg src content =>
    if src ≠ String.toList "user" ∧ hasSub taskCompletedSentinel content = false then
      let st1 : PipeState := ⟨st.log ++ [thoughtRec src content], st.toolCalls⟩
      (st1, TraceItem.append (thoughtRec src content) ::
        (if st1.log.length % 3 = 0 then [TraceItem.checkpoint] else []))
    else (st, [])
  | .toolCallReqEvent src calls => processCalls src st calls
  | .toolExecEvent _ results =>
    let r := processResults st results
    (r.1, r.2 ++ [TraceItem.checkpoint])
  | .taskResult => (st, [])

def processStream : PipeState → List AgentEvent → PipeState × List TraceItem
  | st, [] => (st, [])
  | st, e :: es =>
    let r1 := processEvent st e
    let r2 := processStream r1.1 es
    (r2.1, r1.2 ++ r2.2)

/-- The action trace of one streamed run, from the initial empty log. -/
def runTrace (events : List AgentEvent) : List TraceItem :=
  (processStream ⟨[], 0⟩ events).2

/-! ## The turn scheduler (`selector_func`) -/

/-- Message history entries, as `selector_func` distinguishes them: a
`TextMessage`, a `FunctionExecutionResultMessage`, or any other event type
(each carries a source and a content). -/
inductive ChatMsg where
  | text : Str → Str → ChatMsg
  | funcResult : Str → Str → ChatMsg
  | otherEvent : Str → Str → ChatMsg

def ChatMsg.source : ChatMsg → Str
  | .text s _ => s
  | .funcResult s _ => s
  | .otherEvent s _ => s

def ChatMsg.content : ChatMsg → Str
  | .text _ c => c
  | .funcResult _ c => c
  | .otherEvent _ c => c

def delegateSentinel : Str := String.toList "DELEGATE_TO_PLANNER"

def subtaskDoneSentinel : Str := String.toList "SUBTASK_DONE"

def terminateSentinel : Str := String.toList "TERMINATE"

def visualEditTag : Str := String.toList "[VISUAL EDIT]"

/-- `selector_func` from `AgentOrchestrator.__init__`: the turn scheduler. -/
def selectorFunc (messages : List ChatMsg) : Option Str :=
  match messages.getLast? with
  | none => some (String.toList "Coder")
  | some last =>
    if last.source = String.toList "Planner" then some (String.toList "Coder")
    else if last.source = String.toList "Coder" then
      match last with
      | .text _ c =>
        if hasSub delegateSentinel c then some (String.toList "Planner")
        else if hasSub subtaskDoneSentinel c then some (String.toList "Planner")
        else if hasSub terminateSentinel c then none
        else some (String.toList "Coder")
      | _ => some (String.toList "Coder")
    else
      match last with
      | .funcResult _ _ => some (String.toList "Coder")
      | _ =>
        if last.source = String.toList "user" then
          if hasSub visualEditTag last.content then some (String.toList "Coder")
          else some (String.toList "Planner")
        else none

/-! ## The termination policy

Modelled from the spec: the source composes the termination condition as
`TextMentionTermination("TERMINATE") | MaxMessageTermination(50)`
(`orchestrator.py`, line 53); the predicate semantics of these two library
conditions is not part of the repository, and is taken from spec section 4.2:
`shouldStop(history)` holds when some message content contains the sentinel
substring, or the history length has reached the configured maximum. -/
def shouldStop (maxMessages : Nat) (sentinel : Str) (history : List ChatMsg) : Bool :=
  history.any (fun m => hasSub sentinel m.content) || decide (maxMessages ≤ history.length)

/-- The composed condition of `AgentOrchestrator.__init__`. -/
def terminationCheck (history : List ChatMsg) : Bool :=
  shouldStop 50 terminateSentinel history

/-! ## Trace predicates for the checkpoint claims

`c2ClaimCheck` states the spec claim as written: a checkpoint occurs exactly
after each `tool_response` record and after each `thought` record whose
ordinal among thought records is a multiple of 3 (`thoughts` counts the
thought records seen).  `c2AmendedCheck` states the behaviour of the source:
a checkpoint follows each `thought` record that brings the total log length
to a multiple of 3, and each batch of `tool_response` records appended by one
tool-execution event (`total` counts all records seen). -/

/-- Modes of the trace checkers: `0` — no checkpoint may come next; `1` — a
checkpoint must come next; `2` — a checkpoint or a further `tool_response`
record must come next. -/
def c2ClaimCheck (thoughts mode : Nat) : List TraceItem → Bool
  | [] => mode == 0
  | .checkpoint :: rest => if mode == 1 then c2ClaimCheck thoughts 0 rest else false
  | .reloadSignal :: rest => if mode == 1 then false else c2ClaimCheck thoughts 0 rest
  | .append r :: rest =>
    if mode == 1 then false
    else
      if r.kind = RecKind.thought then
        if (thoughts + 1) % 3 = 0 then c2ClaimCheck (thoughts + 1) 1 rest
        else c2ClaimCheck (thoughts + 1) 0 rest
      else if r.kind = RecKind.toolResponse then c2ClaimCheck thoughts 1 rest
      else c2ClaimCheck thoughts 0 rest

def c2AmendedCheck (total mode : Nat) : List TraceItem → Bool
  | [] => mode == 0
  | .checkpoint :: rest => if mode == 1 || mode == 2 then c2AmendedCheck total 0 rest else false
  | .reloadSignal :: rest => if mode == 1 || mode == 2 then false else c2AmendedCheck total 0 rest
  | .append r :: rest =>
    if mode == 1 then false
    else if mode == 2 ∧ r.kind ≠ RecKind.toolResponse then false
    else
      if r.kind = RecKind.thought ∧ (total + 1) % 3 = 0 then
        c2AmendedCheck (total + 1) 1 rest
      else if r.kind = RecKind.toolResponse then c2AmendedCheck (total + 1) 2 rest
      else c2AmendedCheck (total + 1) 0 rest

/-- A trace does not begin with a checkpoint. -/
def headOk : List TraceItem → Bool
  | .checkpoint :: _ => false
  | _ => true

/-- The event stream appends at least one record per tool-execution event. -/
def execEventsNonEmpty (events : List AgentEvent) : Prop :=
  ∀ src results, AgentEvent.toolExecEvent src results ∈ events → results ≠ []

/-! ## The claims -/

def scenDInput : Str := String.toList "<div className=\"card dark\">"

def scenDDelta : List (Str × Str) :=
  [(String.toList "background-color", String.toList "#111")]

def scenDSelector : Str := String.toList "div.card"

/-- Whether an event appends at least one record per tool-execution event. -/
def execOkEvent : AgentEvent → Prop
  | .toolExecEvent _ rs => rs ≠ []
  | _ => True

/-- Remainders that cannot extend a numeral: empty, or headed by a character
that is no digit and none of `.`, `e`, `E`. -/
def numDelim : Str → Bool
  | [] => true
  | c :: _ => !(isDigitC c || c = '.' || c = 'e' || c = 'E')

mutual

/-- Parser fuel needed for a value (one unit per `jparseVal` /
`jparseArrItems` / `jparseObjItems` activation). -/
def jweight : JVal → Nat
  | .jarr xs => 1 + jweightArr xs
  | .jobj ms => 1 + jweightObj ms
  | _ => 1

def jweightArr : List JVal → Nat
  | [] => 0
  | x :: xs => 1 + jweight x + jweightArr xs

def jweightObj : List (Str × JVal) → Nat
  | [] => 0
  | m :: ms => 1 + jweight m.2 + jweightObj ms

end

/-- Every rendered value begins with one of the value-start characters. -/
def valStartC (c : Char) : Bool :=
  c = 'n' || c = 't' || c = 'f' || c = quoteC || c = '[' || c = obraceC ||
  c = '-' || isDigitC c

/-- No position of `s` matches the style-attribute pattern. -/
def noStyleMatch (s : Str) : Prop := ∀ i : Nat, styleAttrAt (s.drop i) = none

/-- The keys of the dictionary are pairwise distinct. -/
def nodupKeys (m : List (Str × Str)) : Prop := (m.map Prod.fst).Nodup

theorem readUntil_length {stop : Char} : ∀ {s v r : Str},
    readUntil stop s = some (v, r) → r.length < s.length := by
  intro s
  induction s with
  | nil => intro v r h; simp [readUntil] at h
  | cons c t ih =>
    intro v r h
    by_cases hc : c = stop
    · simp only [readUntil, if_pos hc, Option.some.injEq, Prod.mk.injEq] at h
      rw [← h.2]
      simp
    · simp only [readUntil, if_neg hc, Option.map_eq_some'] at h
      obtain ⟨p, hp, he⟩ := h
      have hlt := ih (v := p.1) (r := p.2) (by rw [← Prod.mk.eta (p := p)] at hp; exact hp)
      have hr : r = p.2 := (Prod.mk.injEq _ _ _ _ ▸ he).2.symm
      rw [hr]
      simp only [List.length_cons]
      omega

theorem cnameAttrAt_length {s r : Str} (h : cnameAttrAt s = some r) :
    r.length < s.length := by
  unfold cnameAttrAt at h
  split at h
  · rename_i hpre
    have hlen : 10 ≤ s.length := by
      have := List.IsPrefix.length_le ( List.isPrefixOf_iff_prefix.mp hpre)
      simpa using this
    revert h
    split
    · intro h; exact absurd h (by simp)
    · rename_i c t heq
      have ht : t.length + 1 = s.length - 10 := by
        have : (s.drop 10).length = s.length - 10 := by simp
        rw [heq] at this
        simpa using this
      intro h
      split at h
      · obtain ⟨⟨v2, r2⟩, hp, he⟩ := Option.map_eq_some'.mp h
        have := @readUntil_length quoteC _ _ _ hp
        have hr : r = r2 := he.symm
        rw [hr]
        omega
      · split at h
        · obtain ⟨⟨v2, r2⟩, hp, he⟩ := Option.map_eq_some'.mp h
          have := @readUntil_length apostC _ _ _ hp
          have hr : r = r2 := he.symm
          rw [hr]
          omega
        · split at h
          · obtain ⟨⟨v2, r2⟩, hp, he⟩ := Option.map_eq_some'.mp h
            have := @readUntil_length cbraceC _ _ _ hp
            have hr : r = r2 := he.symm
            rw [hr]
            omega
          · exact absurd h (by simp)
  · exact absurd h (by simp)

/-! ## Helper lemmas -/

theorem splitAtGt_split : ∀ {l t s : Str}, splitAtGt l = some (t, s) → l = t ++ s := by
  intro l
  induction l with
  | nil => intro t s h; simp [splitAtGt] at h
  | cons c r ih =>
    intro t s h
    by_cases hc : c = '>'
    · simp only [splitAtGt, if_pos hc, Option.some.injEq, Prod.mk.injEq] at h
      rw [← h.1, ← h.2]
      simp
    · simp only [splitAtGt, if_neg hc, Option.map_eq_some'] at h
      obtain ⟨⟨t0, s0⟩, hp, he⟩ := h
      have h0 := ih hp
      have ht : t = c :: t0 := ((Prod.mk.injEq _ _ _ _).mp he).1.symm
      have hs : s = s0 := ((Prod.mk.injEq _ _ _ _).mp he).2.symm
      rw [ht, hs, h0]
      simp

theorem findTarget_split (tagLit : Str) (ok : Str → Bool) :
    ∀ {l pre t suf : Str}, findTarget tagLit ok l = some (pre, t, suf) →
      l = pre ++ t ++ suf := by
  intro l
  induction l with
  | nil => intro pre t suf h; simp [findTarget] at h
  | cons c rest ih =>
    intro pre t suf h
    rw [findTarget] at h
    split at h
    · rename_i r heq
      cases h
      split at heq
      · revert heq
        split
        · rename_i p hgt
          split
          · intro heq
            cases heq
            have := splitAtGt_split hgt
            rw [← Prod.mk.eta (p := p)] at this
            simpa using this
          · intro heq; exact absurd heq (by simp)
        · intro heq; exact absurd heq (by simp)
      · exact absurd heq (by simp)
    · rename_i heq
      simp only [Option.map_eq_some'] at h
      obtain ⟨⟨p1, p2, p3⟩, hp, he⟩ := h
      have h0 := ih hp
      have h1 : pre = c :: p1 := ((Prod.mk.injEq _ _ _ _).mp he).1.symm
      have h2 : t = p2 := congrArg (fun q => q.2.1) he.symm
      have h3 : suf = p3 := congrArg (fun q => q.2.2) he.symm
      rw [h1, h2, h3, h0]
      simp

theorem getLast?_appendSingle {α : Type} (l : List α) (a : α) :
    (l ++ [a]).getLast? = some a := by
  rw [List.getLast?_append_cons]
  rfl


/-- C1: the claim states that patching `<div className="card dark">` with
selector `div.card` and StyleDelta `background-color: #111` yields
`<div className="card dark" style=..{backgroundColor: '#111'}..>`, the new
style attribute following the className attribute.  It is false: the code
inserts the built attribute immediately after the tag-name token, i.e.
before the className attribute. -/
theorem c1_counterexample :
    applyStylesToJsx scenDInput scenDSelector scenDDelta none ≠
      String.toList "<div className=\"card dark\" style=\x7b\x7bbackgroundColor: '#111'\x7d\x7d>" := by
  decide

/-- C1 (amended): patching `<div className="card dark">` with selector
`div.card` and StyleDelta `background-color: #111` produces
`<div style=..{backgroundColor: '#111'}..> className="card dark">` — the
kebab-case key is camel-cased and the newly built style attribute is placed
immediately after the tag-name token, before the existing className
attribute. -/
theorem c1_scenario_d :
    applyStylesToJsx scenDInput scenDSelector scenDDelta none =
      String.toList "<div style=\x7b\x7bbackgroundColor: '#111'\x7d\x7d className=\"card dark\">" := by
  decide

/-- C3: for a `tag#id` selector and a matched tag with no class attribute,
the claim says a new double-quoted class attribute is inserted immediately
after the tag-name token.  The code instead computes the insertion offset
from the whole selector (`len("<" + element_selector)`), so for selector
`div#main` on `<div id="main">` the attribute lands inside the id attribute
value, producing `<div id=" className="new"main">`. -/
theorem c3_insertion_offset_bug :
    applyClassnameToJsx (String.toList "<div id=\"main\">")
        (String.toList "div#main") (String.toList "new") none =
      String.toList "<div id=\" className=\"new\"main\">" := by
  decide

/-- C5: any successful patch (style or class) only rewrites the matched
tag's span: writing the input as `pre ++ tag ++ suf` along the selected
match, the output is `pre ++ newTag ++ suf` for some `newTag` — every byte
outside the matched span is unchanged. -/
theorem c5_minimal_diff (content sel newClass : Str) (delta : List (Str × Str))
    (oc : Option Str) (pre tagC suf : Str)
    (h : findTarget ('<' :: (parseSelector sel).1)
        (candidateOk (parseSelector sel).2.1 (parseSelector sel).2.2 oc) content =
        some (pre, tagC, suf)) :
    content = pre ++ tagC ++ suf ∧
    (∃ newTag, applyStylesToJsx content sel delta oc = pre ++ newTag ++ suf) ∧
    (∃ newTag, applyClassnameToJsx content sel newClass oc = pre ++ newTag ++ suf) := by
  refine ⟨findTarget_split _ _ h, ?_, ?_⟩
  · refine ⟨?_, ?_⟩
    · exact (match findStyleGroup tagC with
        | some g => subStyleAll (styleAttrOf (dictUpdate
            (if stripPy g = [] then [] else dictOfPairs (stylePairs (stripPy g)))
            (reactStylesOf delta))) tagC
        | none => tagC.take ((parseSelector sel).1.length + 1) ++
            (' ' :: styleAttrOf (reactStylesOf delta)) ++
            tagC.drop ((parseSelector sel).1.length + 1))
    · rw [applyStylesToJsx, h]
  · refine ⟨?_, ?_⟩
    · exact (if hasCnameAttr tagC then
          subCnameAll (String.toList "className=" ++ quoteC :: (newClass ++ [quoteC])) tagC
        else tagC.take (sel.length + 1) ++
          (' ' :: (String.toList "className=" ++ quoteC :: (newClass ++ [quoteC]))) ++
          tagC.drop (sel.length + 1))
    · rw [applyClassnameToJsx, h]

/-- C5 witness: the Scenario D patch instantiates the minimal-diff frame
theorem with a concrete match. -/
theorem c5_minimal_diff_witness :
    scenDInput = [] ++ scenDInput ++ [] ∧
    (∃ newTag, applyStylesToJsx scenDInput scenDSelector scenDDelta none =
      [] ++ newTag ++ []) ∧
    (∃ newTag, applyClassnameToJsx scenDInput scenDSelector
        (String.toList "card") none = [] ++ newTag ++ []) :=
  c5_minimal_diff scenDInput scenDSelector (String.toList "card") scenDDelta none
    [] scenDInput [] (by decide)

/-- C7: a history whose last message is a `TextMessage` from the Coder whose
content contains `DELEGATE_TO_PLANNER` makes the scheduler select the
Planner. -/
theorem c7_delegation (h : List ChatMsg) (c : Str)
    (hc : hasSub delegateSentinel c = true) :
    selectorFunc (h ++ [ChatMsg.text (String.toList "Coder") c]) =
      some (String.toList "Planner") := by
  rw [selectorFunc, getLast?_appendSingle]
  simp only [ChatMsg.source]
  rw [if_neg (by decide), if_pos (by decide)]
  simp only [hc]
  simp

/-- C7 witness. -/
theorem c7_delegation_witness :
    selectorFunc ([ChatMsg.text (String.toList "user") (String.toList "build it")] ++
        [ChatMsg.text (String.toList "Coder")
          (String.toList "plan ready DELEGATE_TO_PLANNER")]) =
      some (String.toList "Planner") :=
  c7_delegation _ _ (by decide)

/-- C8: the termination predicate (sentinel containment in some message, or
history length at least the configured maximum of 50) is monotone under
history extension. -/
theorem c8_monotone (h e : List ChatMsg) (hs : terminationCheck h = true) :
    terminationCheck (h ++ e) = true := by
  rw [terminationCheck, shouldStop] at hs ⊢
  rcases Bool.or_eq_true_iff.mp hs with hany | hlen
  · apply Bool.or_eq_true_iff.mpr
    left
    rw [List.any_append, hany]
    simp
  · apply Bool.or_eq_true_iff.mpr
    right
    rw [List.length_append]
    simp only [decide_eq_true_eq] at hlen ⊢
    omega

/-- C8 witness. -/
theorem c8_monotone_witness :
    terminationCheck ([ChatMsg.text (String.toList "Planner")
        (String.toList "done TERMINATE")] ++
      [ChatMsg.text (String.toList "user") (String.toList "more")]) = true :=
  c8_monotone _ _ (by decide)

/-- C9: the claim states that any role text event whose content is not
solely a control sentinel is recorded as a thought, in particular text that
contains a sentinel along with other substantive text.  It is false: the
source drops any text containing `TASK_COMPLETED` as a substring.  The
content below is not equal to any control sentinel, yet nothing is
appended. -/
theorem c9_counterexample :
    (String.toList "Summary written. TASK_COMPLETED" ≠ taskCompletedSentinel ∧
     String.toList "Summary written. TASK_COMPLETED" ≠ terminateSentinel ∧
     String.toList "Summary written. TASK_COMPLETED" ≠ delegateSentinel ∧
     String.toList "Summary written. TASK_COMPLETED" ≠ subtaskDoneSentinel) ∧
    (processEvent ⟨[], 0⟩ (AgentEvent.textMsg (String.toList "Coder")
        (String.toList "Summary written. TASK_COMPLETED"))).1.log = [] := by
  constructor
  · refine ⟨by decide, by decide, by decide, by decide⟩
  · rfl

/-- C9 (amended): a role text event appends a thought record carrying its
content exactly when the source is not the user and the content does not
contain `TASK_COMPLETED` as a substring. -/
theorem c9_thought_filter (st : PipeState) (src content : Str) :
    (processEvent st (AgentEvent.textMsg src content)).1.log =
      if src ≠ String.toList "user" ∧ hasSub taskCompletedSentinel content = false
      then st.log ++ [thoughtRec src content]
      else st.log := by
  rw [processEvent]
  split <;> rfl

/-- C2: the claim states that a checkpoint occurs exactly after each
`tool_response` record and after each thought record whose ordinal among
thought records is a multiple of 3.  It is false: the source checkpoints a
thought when the total interaction-log length (thoughts, tool calls and tool
responses together) is a multiple of 3.  Below, the second thought record is
followed by a checkpoint because it is the third record overall. -/
theorem c2_counterexample :
    c2ClaimCheck 0 0 (runTrace
      [AgentEvent.textMsg (String.toList "Coder") (String.toList "alpha"),
       AgentEvent.toolCallReqEvent (String.toList "Coder")
         [⟨String.toList "write_file", String.toList "notjson"⟩],
       AgentEvent.textMsg (String.toList "Coder") (String.toList "beta")]) = false := by
  rfl

/-- C10: the claim states a corrupt state artifact is logged as a warning.
It is false: the `except` handler of `load_state` logs through
`logger.error`. -/
theorem c10_counterexample :
    (loadState (fun _ => some (String.toList "\x7bbad")) 0).2 = LogLevel.error ∧
    LogLevel.error ≠ LogLevel.warning ∧
    (loadState (fun _ => some (String.toList "\x7bbad")) 0).1.1 = false := by
  refine ⟨rfl, by decide, rfl⟩

/-- C10 (amended): loading never propagates an error: a missing artifact
returns absent with an info log, and an unparseable artifact returns absent
with an error-level log. -/
theorem c10_load_total (store : StateStore) (pid : Nat) :
    (store pid = none → loadState store pid = ((false, none), LogLevel.info)) ∧
    (∀ content, store pid = some content → pyLoads content = none →
      loadState store pid = ((false, none), LogLevel.error)) := by
  constructor
  · intro hmiss
    rw [loadState, hmiss]
  · intro content hsome hbad
    rw [loadState, hsome]
    show (match pyLoads content with
      | some v => ((true, some v), LogLevel.info)
      | none => ((false, none), LogLevel.error)) = ((false, none), LogLevel.error)
    rw [hbad]

/-- C10 witness. -/
theorem c10_load_total_witness :
    loadState (fun _ => none) 0 = ((false, none), LogLevel.info) ∧
    loadState (fun _ => some (String.toList "\x7bbad")) 7 =
      ((false, none), LogLevel.error) :=
  ⟨(c10_load_total (fun _ => none) 0).1 rfl,
   (c10_load_total (fun _ => some (String.toList "\x7bbad")) 7).2 _ rfl rfl⟩

/-! ## C2: the checkpoint discipline of the streaming loop -/

theorem calls_block (src : Str) : ∀ (cs : List ToolCallReq) (st : PipeState)
    (rest : List TraceItem),
    c2AmendedCheck st.log.length 0 ((processCalls src st cs).2 ++ rest) =
      c2AmendedCheck (processCalls src st cs).1.log.length 0 rest := by
  intro cs
  induction cs with
  | nil => intro st rest; simp [processCalls]
  | cons c cs ih =>
    intro st rest
    rw [processCalls]
    simp only [List.append_assoc, List.cons_append]
    by_cases h10 : (st.toolCalls + 1) % 10 = 0
    · rw [if_pos h10]
      simp only [List.singleton_append]
      simp only [c2AmendedCheck, toolCallRec]
      have h1 := ih { log := st.log ++ [toolCallRec src c], toolCalls := st.toolCalls + 1 } rest
      simp only [toolCallRec, List.length_append, List.length_cons, List.length_nil] at h1 ⊢
      simpa using h1
    · rw [if_neg h10]
      simp only [c2AmendedCheck, toolCallRec, List.nil_append]
      have h1 := ih { log := st.log ++ [toolCallRec src c], toolCalls := st.toolCalls + 1 } rest
      simp only [toolCallRec, List.length_append, List.length_cons, List.length_nil] at h1 ⊢
      simpa using h1

theorem results_block : ∀ (rs : List ToolExecResult) (st : PipeState)
    (rest : List TraceItem) (m : Nat), rs ≠ [] → (m = 0 ∨ m = 2) →
    c2AmendedCheck st.log.length m
        ((processResults st rs).2 ++ TraceItem.checkpoint :: rest) =
      c2AmendedCheck (processResults st rs).1.log.length 0 rest := by
  intro rs
  induction rs with
  | nil => intro st rest m hne hm; exact absurd rfl hne
  | cons r rs ih =>
    intro st rest m hne hm
    rw [processResults]
    simp only [List.cons_append]
    have step : ∀ items, c2AmendedCheck st.log.length m
        (TraceItem.append (toolRespRec r) :: items) =
        c2AmendedCheck (st.log.length + 1) 2 items := by
      intro items
      rcases hm with rfl | rfl <;> simp [c2AmendedCheck, toolRespRec]
    rw [step]
    cases rs with
    | nil =>
      simp [processResults, c2AmendedCheck, List.length_append]
    | cons r2 rs2 =>
      have h1 := ih { log := st.log ++ [toolRespRec r], toolCalls := st.toolCalls }
        rest 2 (by simp) (Or.inr rfl)
      simp only [List.length_append, List.length_cons, List.length_nil] at h1 ⊢
      simpa using h1

theorem event_block (e : AgentEvent) (st : PipeState) (rest : List TraceItem)
    (hne : execOkEvent e) :
    c2AmendedCheck st.log.length 0 ((processEvent st e).2 ++ rest) =
      c2AmendedCheck (processEvent st e).1.log.length 0 rest := by
  cases e with
  | textMsg src content =>
    rw [processEvent]
    split
    · simp only [List.cons_append]
      by_cases h3 : (st.log.length + 1) % 3 = 0
      · have hl : (st.log ++ [thoughtRec src content]).length % 3 = 0 := by
          simpa using h3
        simp [c2AmendedCheck, thoughtRec, hl, h3, List.length_append]
      · have hl : ¬ (st.log ++ [thoughtRec src content]).length % 3 = 0 := by
          simpa using h3
        simp [c2AmendedCheck, thoughtRec, hl, h3, List.length_append]
    · simp
  | toolCallReqEvent src calls => exact calls_block src calls st rest
  | toolExecEvent src results =>
    have hr : results ≠ [] := hne
    show c2AmendedCheck st.log.length 0
        (((processResults st results).2 ++ [TraceItem.checkpoint]) ++ rest) = _
    rw [List.append_assoc, List.singleton_append]
    exact results_block results st rest 0 hr (Or.inl rfl)
  | taskResult => simp [processEvent]

theorem stream_check : ∀ (events : List AgentEvent) (st : PipeState),
    (∀ e ∈ events, execOkEvent e) →
    c2AmendedCheck st.log.length 0 ((processStream st events).2) = true := by
  intro events
  induction events with
  | nil => intro st h; simp [processStream, c2AmendedCheck]
  | cons e es ih =>
    intro st h
    rw [processStream]
    simp only []
    rw [event_block e st _ (h e (List.mem_cons_self e es))]
    exact ih (processEvent st e).1 (fun x hx => h x (List.mem_cons_of_mem e hx))

/-- C2 (amended): in every streamed run whose tool-execution events carry at
least one result, the trace satisfies the checkpoint discipline of the
source: a checkpoint follows each thought record that brings the total
interaction-log length to a multiple of 3, each batch of `tool_response`
records appended by one tool-execution event is closed by exactly one
checkpoint, and no other checkpoints occur. -/
theorem c2_amended_checkpoints (events : List AgentEvent)
    (hne : ∀ e ∈ events, execOkEvent e) :
    c2AmendedCheck 0 0 (runTrace events) = true := by
  have h := stream_check events ⟨[], 0⟩ hne
  simpa [runTrace] using h

/-- C2 amended witness: a run with one thought, one tool call, a tool
execution and a closing thought passes the checker. -/
theorem c2_amended_checkpoints_witness :
    c2AmendedCheck 0 0 (runTrace
      [AgentEvent.textMsg (String.toList "Coder") (String.toList "planning"),
       AgentEvent.toolCallReqEvent (String.toList "Coder")
         [⟨String.toList "write_file", String.toList "notjson"⟩],
       AgentEvent.toolExecEvent (String.toList "sys")
         [⟨String.toList "write_file", String.toList "ok"⟩],
       AgentEvent.textMsg (String.toList "Coder") (String.toList "done")]) = true :=
  c2_amended_checkpoints _ (by
    intro e he
    simp only [List.mem_cons, List.not_mem_nil, or_false] at he
    rcases he with rfl | rfl | rfl | rfl <;> simp [execOkEvent])

/-! ## C4: the save/load round trip

Completeness of `pyLoads` on `pyDumps` output.  First the numeral codec. -/

theorem digitC_val {k : Nat} (h : k < 10) :
    (digitC k).toNat - 48 = k ∧ isDigitC (digitC k) = true := by
  interval_cases k <;> exact ⟨by decide, by decide⟩

theorem digitC_zero {k : Nat} (h : k < 10) : digitC k = '0' ↔ k = 0 := by
  interval_cases k <;> decide

theorem natStr_step (n : Nat) :
    natStr n = (if n < 10 then [] else natStr (n / 10)) ++ [digitC (n % 10)] := by
  rw [natStr.eq_def]
  by_cases h : n < 10
  · simp [h, Nat.mod_eq_of_lt h]
  · simp [h]

theorem natStr_nonempty (n : Nat) : natStr n ≠ [] := by
  rw [natStr_step]
  simp

theorem natStr_all_digits (n : Nat) : ∀ c ∈ natStr n, isDigitC c = true := by
  induction n using Nat.strongRecOn with
  | ind n ih =>
    rw [natStr_step]
    intro c hc
    rcases List.mem_append.mp hc with h1 | h2
    · by_cases h : n < 10
      · simp [h] at h1
      · exact ih (n / 10) (Nat.div_lt_self (by omega) (by omega)) c (by simpa [h] using h1)
    · rw [List.mem_singleton] at h2
      rw [h2]
      exact (digitC_val (Nat.mod_lt _ (by omega))).2

theorem digitsVal_natStr (n : Nat) : digitsVal (natStr n) = n := by
  induction n using Nat.strongRecOn with
  | ind n ih =>
    rw [digitsVal, natStr_step, List.foldl_append]
    by_cases h : n < 10
    · simp only [if_pos h, List.foldl_nil, List.foldl_cons]
      rw [(digitC_val (Nat.mod_lt _ (by omega))).1]
      omega
    · simp only [if_neg h, List.foldl_cons, List.foldl_nil]
      have hv := ih (n / 10) (Nat.div_lt_self (by omega) (by omega))
      rw [digitsVal] at hv
      rw [hv, (digitC_val (Nat.mod_lt _ (by omega))).1]
      omega

theorem natStr_head_digit (n : Nat) :
    ∃ c t, natStr n = c :: t ∧ isDigitC c = true := by
  match h : natStr n with
  | [] => exact absurd h (natStr_nonempty n)
  | c :: t => exact ⟨c, t, rfl, natStr_all_digits n c (h ▸ List.mem_cons_self _ _)⟩

theorem natStr_head_nonzero (n : Nat) (hn : n ≠ 0) :
    ∃ c t, natStr n = c :: t ∧ isDigitC c = true ∧ c ≠ '0' := by
  induction n using Nat.strongRecOn with
  | ind n ih =>
    rw [natStr_step]
    by_cases h : n < 10
    · refine ⟨digitC (n % 10), [], by simp [h], (digitC_val (Nat.mod_lt _ (by omega))).2, ?_⟩
      intro hz
      rw [digitC_zero (Nat.mod_lt _ (by omega))] at hz
      have := Nat.mod_eq_of_lt h
      omega
    · obtain ⟨c, t, heq, hd, hz⟩ := ih (n / 10) (Nat.div_lt_self (by omega) (by omega)) (by omega)
      exact ⟨c, t ++ [digitC (n % 10)], by simp [h, heq], hd, hz⟩

theorem allTakeWhileAppend (p : Char → Bool) : ∀ (l r : Str), (∀ c ∈ l, p c = true) →
    (l ++ r).takeWhile p = l ++ r.takeWhile p ∧ (l ++ r).dropWhile p = r.dropWhile p := by
  intro l
  induction l with
  | nil => intro r _; simp
  | cons c t ih =>
    intro r h
    have hc : p c = true := h c (List.mem_cons_self _ _)
    have ht := ih r (fun x hx => h x (List.mem_cons_of_mem _ hx))
    simp [List.takeWhile_cons, List.dropWhile_cons, hc, ht.1, ht.2]

theorem jparseNat_natStr (n : Nat) (rest : Str) (hr : numDelim rest = true) :
    jparseNat (natStr n ++ rest) = some (n, rest) := by
  have hrtake : rest.takeWhile isDigitC = [] ∧ rest.dropWhile isDigitC = rest := by
    cases rest with
    | nil => simp
    | cons c t =>
      simp only [numDelim, Bool.not_eq_true', Bool.or_eq_false_iff] at hr
      simp [List.takeWhile_cons, List.dropWhile_cons, hr.1.1.1]
  by_cases hn : n = 0
  · subst hn
    rw [show natStr 0 = ['0'] from by rw [natStr.eq_def]; decide]
    rw [List.singleton_append, jparseNat]
    simp
  · obtain ⟨c, t, heq, hd, hz⟩ := natStr_head_nonzero n hn
    rw [heq, List.cons_append, jparseNat]
    rw [if_neg hz, if_pos hd]
    have hall : ∀ x ∈ t, isDigitC x = true := by
      intro x hx
      exact natStr_all_digits n x (heq ▸ List.mem_cons_of_mem _ hx)
    have htw := allTakeWhileAppend isDigitC t rest hall
    rw [htw.1, htw.2, hrtake.1, hrtake.2, List.append_nil]
    have hv : digitsVal (c :: t) = n := by
      rw [← heq]
      exact digitsVal_natStr n
    rw [hv]

theorem floatGuard_delim (rest : Str) (hr : numDelim rest = true) :
    floatGuard rest = some rest := by
  cases rest with
  | nil => rfl
  | cons c t =>
    simp only [numDelim, Bool.not_eq_true', Bool.or_eq_false_iff] at hr
    simp only [floatGuard]
    rw [hr.1.1.2, hr.1.2, hr.2]
    rfl

theorem digit_not_minus {c : Char} (h : isDigitC c = true) : ¬ c = '-' := by
  intro he
  rw [he] at h
  exact absurd h (by decide)

theorem jparseInt_intStr (i : Int) (rest : Str) (hr : numDelim rest = true) :
    jparseInt (intStr i ++ rest) = some (i, rest) := by
  by_cases hi : i < 0
  · rw [intStr, if_pos hi, List.cons_append, jparseInt]
    rw [if_pos rfl, jparseNat_natStr _ _ hr]
    simp only [Option.some_bind]
    rw [floatGuard_delim _ hr]
    simp only [Option.map_some']
    have hv : -(i.natAbs : Int) = i := by omega
    rw [hv]
  · rw [intStr, if_neg hi]
    obtain ⟨c, t, heq, hd⟩ := natStr_head_digit i.natAbs
    rw [heq, List.cons_append, jparseInt]
    rw [if_neg (digit_not_minus hd), ← List.cons_append, ← heq,
      jparseNat_natStr _ _ hr]
    simp only [Option.some_bind]
    rw [floatGuard_delim _ hr]
    simp only [Option.map_some']
    have hv : (i.natAbs : Int) = i := by omega
    rw [hv]

theorem hexValHexDig {k : Nat} (h : k < 16) : hexVal (hexDigC k) = some k := by
  interval_cases k <;> decide

theorem escChar_len1 (c : Char) : 1 ≤ (escChar c).length := by
  unfold escChar
  split_ifs <;> simp

theorem escLen_ge (s : Str) : s.length ≤ (s.flatMap escChar).length := by
  induction s with
  | nil => simp
  | cons c t ih =>
    rw [List.flatMap_cons, List.length_append, List.length_cons]
    have := escChar_len1 c
    omega

theorem jparseStrGo_esc (c : Char) (f : Nat) (z : Str) :
    jparseStrGo (f + 1) (escChar c ++ z) =
      (jparseStrGo f z).map (fun p => (c :: p.1, p.2)) := by
  by_cases h1 : c = quoteC
  · subst h1; rfl
  · by_cases h2 : c = backslashC
    · subst h2; rfl
    · by_cases h3 : c = nlC
      · subst h3; rfl
      · by_cases h4 : c = tabC
        · subst h4; rfl
        · by_cases h5 : c = crC
          · subst h5; rfl
          · by_cases h6 : c = Char.ofNat 8
            · subst h6; rfl
            · by_cases h7 : c = Char.ofNat 12
              · subst h7; rfl
              · by_cases h8 : c.toNat < 32
                · have hc : c = Char.ofNat c.toNat := (Char.ofNat_toNat c).symm
                  have h32 : c.toNat < 32 := h8
                  rw [hc]
                  set n := c.toNat with hn
                  clear_value n
                  clear hc hn h1 h2 h3 h4 h5 h6 h7 h8
                  interval_cases n <;> rfl
                · have hesc : escChar c = [c] := by
                    simp [escChar, h1, h2, h3, h4, h5, h6, h7, h8]
                  rw [hesc, List.cons_append, List.nil_append]
                  show (if c = quoteC then some ([], z)
                    else if c = backslashC then _
                    else if c.toNat < 32 then none
                    else (jparseStrGo f z).map (fun p => (c :: p.1, p.2))) = _
                  rw [if_neg h1, if_neg h2, if_neg h8]

theorem strBody_complete : ∀ (s : Str) (f : Nat) (rest : Str), s.length < f →
    jparseStrGo f (s.flatMap escChar ++ quoteC :: rest) = some (s, rest) := by
  intro s
  induction s with
  | nil =>
    intro f rest hf
    cases f with
    | zero => omega
    | succ f2 => rfl
  | cons c t ih =>
    intro f rest hf
    cases f with
    | zero => omega
    | succ f2 =>
      rw [List.flatMap_cons, List.append_assoc, jparseStrGo_esc,
        ih f2 rest (by simp at hf; omega)]
      rfl

theorem jparseStr_complete (s rest : Str) :
    jparseStr (s.flatMap escChar ++ quoteC :: rest) = some (s, rest) := by
  rw [jparseStr]
  apply strBody_complete
  have h := escLen_ge s
  rw [List.length_append, List.length_cons]
  omega

theorem jweight_pos (v : JVal) : 1 ≤ jweight v := by
  cases v <;> simp [jweight]

theorem jskipWs_spaces (k : Nat) (z : Str) :
    jskipWs (List.replicate k ' ' ++ z) = jskipWs z := by
  induction k with
  | zero => simp
  | succ k2 ih =>
    rw [List.replicate_succ, List.cons_append, jskipWs]
    simpa using ih

theorem jskipWs_indent (d : Nat) (z : Str) : jskipWs (jindent d ++ z) = jskipWs z :=
  jskipWs_spaces (2 * d) z

theorem render_head (d : Nat) (v : JVal) :
    ∃ c t, renderVal d v = c :: t ∧ valStartC c = true := by
  cases v with
  | jnull => exact ⟨'n', _, rfl, by decide⟩
  | jbool b => cases b with
    | true => exact ⟨'t', _, rfl, by decide⟩
    | false => exact ⟨'f', _, rfl, by decide⟩
  | jint i =>
    show ∃ c t, intStr i = c :: t ∧ valStartC c = true
    rw [intStr]
    by_cases hi : i < 0
    · exact ⟨'-', _, by rw [if_pos hi], by decide⟩
    · obtain ⟨c, t, heq, hd⟩ := natStr_head_digit i.natAbs
      exact ⟨c, t, by rw [if_neg hi, heq], by simp [valStartC, hd]⟩
  | jstr s => exact ⟨quoteC, _, rfl, by decide⟩
  | jarr xs => cases xs with
    | nil => exact ⟨'[', _, rfl, by decide⟩
    | cons x xs2 => exact ⟨'[', _, rfl, by decide⟩
  | jobj ms => cases ms with
    | nil => exact ⟨obraceC, _, rfl, by decide⟩
    | cons m ms2 => exact ⟨obraceC, _, rfl, by decide⟩

theorem valStart_not_ws {c : Char} (h : valStartC c = true) :
    (c = ' ' || c = tabC || c = nlC || c = crC) = false := by
  simp only [valStartC, Bool.or_eq_true] at h
  rcases h with ((((((h | h) | h) | h) | h) | h) | h) | h
  all_goals first
    | (simp only [decide_eq_true_eq] at h; subst h; decide)
    | (simp only [isDigitC, Bool.and_eq_true, decide_eq_true_eq] at h
       simp only [Bool.or_eq_false_iff, decide_eq_false_iff_not]
       have h1 := h.1
       have h2 := h.2
       refine ⟨⟨⟨?_, ?_⟩, ?_⟩, ?_⟩ <;> (intro he; subst he; revert h1 h2; decide))

theorem jskipWs_render (d : Nat) (v : JVal) (z : Str) :
    jskipWs (renderVal d v ++ z) = renderVal d v ++ z := by
  obtain ⟨c, t, heq, hc⟩ := render_head d v
  rw [heq, List.cons_append, jskipWs, valStart_not_ws hc]
  simp

theorem jskipWs_nl (z : Str) : jskipWs (nlC :: z) = jskipWs z := rfl

theorem numStart_not_others {c : Char} (h : (c = '-' || isDigitC c) = true) :
    ¬ c = 'n' ∧ ¬ c = 't' ∧ ¬ c = 'f' ∧ ¬ c = quoteC ∧ ¬ c = '[' ∧ ¬ c = obraceC := by
  rcases Bool.or_eq_true_iff.mp h with h2 | h2
  · simp only [decide_eq_true_eq] at h2
    subst h2
    refine ⟨by decide, by decide, by decide, by decide, by decide, by decide⟩
  · refine ⟨?_, ?_, ?_, ?_, ?_, ?_⟩ <;> (intro he; subst he; revert h2; decide)

theorem valStart_not_rbracket {c : Char} (h : valStartC c = true) : ¬ c = ']' := by
  simp only [valStartC, Bool.or_eq_true] at h
  rcases h with ((((((h2 | h2) | h2) | h2) | h2) | h2) | h2) | h2
  all_goals first
    | (simp only [decide_eq_true_eq] at h2; subst h2; decide)
    | (intro he; subst he; revert h2; decide)

theorem intStr_head (i : Int) :
    ∃ c t, intStr i = c :: t ∧ (c = '-' || isDigitC c) = true := by
  rw [intStr]
  by_cases hi : i < 0
  · exact ⟨'-', _, by rw [if_pos hi], by decide⟩
  · obtain ⟨c, t, heq, hd⟩ := natStr_head_digit i.natAbs
    exact ⟨c, t, by rw [if_neg hi, heq], by simp [hd]⟩

theorem jcomplete : ∀ f : Nat,
    (∀ (v : JVal) (d : Nat) (rest : Str), jweight v ≤ f → numDelim rest = true →
      jparseVal f (renderVal d v ++ rest) = some (v, rest)) ∧
    (∀ (x : JVal) (xs : List JVal) (d dc : Nat) (rest : Str),
      jweightArr (x :: xs) ≤ f → numDelim rest = true →
      jparseArrItems f
          (renderVal d x ++ (renderArrTail d xs ++ nlC :: (jindent dc ++ ']' :: rest))) =
        some (x :: xs, rest)) ∧
    (∀ (k : Str) (v : JVal) (ms : List (Str × JVal)) (d dc : Nat) (rest : Str),
      jweightObj ((k, v) :: ms) ≤ f → numDelim rest = true →
      jparseObjItems f
          (strQuote k ++ ':' :: ' ' ::
            (renderVal d v ++ (renderObjTail d ms ++ nlC :: (jindent dc ++ cbraceC :: rest)))) =
        some ((k, v) :: ms, rest)) := by
  intro f
  induction f with
  | zero =>
    refine ⟨?_, ?_, ?_⟩
    · intro v d rest hw _
      have := jweight_pos v
      omega
    · intro x xs d dc rest hw _
      simp [jweightArr] at hw
    · intro k v ms d dc rest hw _
      simp [jweightObj] at hw
  | succ f ih =>
    obtain ⟨ihP, ihQ, ihR⟩ := ih
    refine ⟨?_, ?_, ?_⟩
    · -- values
      intro v d rest hw hrest
      cases v with
      | jnull => rfl
      | jbool b => cases b <;> rfl
      | jint i =>
        show jparseVal (f + 1) (intStr i ++ rest) = _
        obtain ⟨c, t, heq, hor⟩ := intStr_head i
        obtain ⟨hn, ht, hf, hq, hb, ho⟩ := numStart_not_others hor
        rw [heq, List.cons_append]
        simp only [jparseVal]
        rw [if_neg hn, if_neg ht, if_neg hf, if_neg hq, if_neg hb, if_neg ho, if_pos hor,
          ← List.cons_append, ← heq, jparseInt_intStr i rest hrest]
        rfl
      | jstr s =>
        show jparseVal (f + 1) (strQuote s ++ rest) = _
        rw [strQuote, List.cons_append, List.append_assoc, List.singleton_append]
        simp only [jparseVal]
        rw [if_neg (by decide), if_neg (by decide), if_neg (by decide)]
        simp only [if_true]
        rw [jparseStr_complete]
        rfl
      | jarr xs =>
        cases xs with
        | nil => rfl
        | cons x xs2 =>
          have hwa : jweightArr (x :: xs2) ≤ f := by
            simp only [jweight] at hw
            omega
          show jparseVal (f + 1)
            (('[' :: nlC :: (jindent (d + 1) ++ renderVal (d + 1) x ++
              renderArrTail (d + 1) xs2 ++ nlC :: (jindent d ++ [']']))) ++ rest) = _
          simp only [List.cons_append, List.append_assoc, List.singleton_append,
            List.nil_append]
          simp only [jparseVal]
          rw [if_neg (by decide), if_neg (by decide), if_neg (by decide),
            if_neg (by decide)]
          simp only [if_true]
          rw [jskipWs_nl, jskipWs_indent, jskipWs_render]
          obtain ⟨c, t, heq, hsig⟩ := render_head (d + 1) x
          rw [heq, List.cons_append]
          split
          · rename_i habs
            simp at habs
          · rename_i c2 r2 heq2
            injection heq2 with h1 h2
            subst h1
            subst h2
            rw [if_neg (valStart_not_rbracket hsig), ← List.cons_append, ← heq,
              ihQ x xs2 (d + 1) d rest hwa hrest]
            rfl
      | jobj ms =>
        cases ms with
        | nil => rfl
        | cons m ms2 =>
          have hwo : jweightObj (m :: ms2) ≤ f := by
            simp only [jweight] at hw
            omega
          obtain ⟨k, v⟩ := m
          show jparseVal (f + 1)
            ((obraceC :: nlC :: (jindent (d + 1) ++ strQuote k ++ ':' :: ' ' ::
              renderVal (d + 1) v ++ renderObjTail (d + 1) ms2 ++
              nlC :: (jindent d ++ [cbraceC]))) ++ rest) = _
          simp only [List.cons_append, List.append_assoc, List.singleton_append,
            List.nil_append]
          simp only [jparseVal]
          rw [if_neg (by decide), if_neg (by decide), if_neg (by decide),
            if_neg (by decide), if_neg (by decide)]
          simp only [if_true]
          rw [jskipWs_nl, jskipWs_indent]
          rw [show ∀ z, jskipWs (strQuote k ++ z) = strQuote k ++ z from fun z => rfl]
          rw [strQuote, List.cons_append]
          split
          · rename_i habs
            simp at habs
          · rename_i c2 r2 heq2
            injection heq2 with h1 h2
            subst h1
            subst h2
            rw [if_neg (by decide)]
            have h := ihR k v ms2 (d + 1) d rest hwo hrest
            simp only [strQuote, List.cons_append, List.append_assoc,
              List.singleton_append, List.nil_append] at h ⊢
            rw [h]
            rfl
    · -- array items
      intro x xs d dc rest hw hrest
      have hwx : jweight x ≤ f := by
        simp only [jweightArr] at hw
        omega
      have hd1 : numDelim (renderArrTail d xs ++ nlC :: (jindent dc ++ ']' :: rest)) = true := by
        cases xs with
        | nil => rfl
        | cons x2 xs2 => rfl
      simp only [jparseArrItems]
      rw [ihP x d _ hwx hd1]
      cases xs with
      | nil =>
        simp only [renderArrTail, List.nil_append]
        rw [jskipWs_nl, jskipWs_indent]
        rfl
      | cons x2 xs2 =>
        have hwa2 : jweightArr (x2 :: xs2) ≤ f := by
          simp only [jweightArr] at hw ⊢
          omega
        simp only [renderArrTail, List.cons_append, List.append_assoc]
        rw [show ∀ z, jskipWs (',' :: z) = ',' :: z from fun z => rfl]
        simp only []
        rw [jskipWs_nl, jskipWs_indent, jskipWs_render,
          ihQ x2 xs2 d dc rest hwa2 hrest]
        rfl
    · -- object members
      intro k v ms d dc rest hw hrest
      have hwv : jweight v ≤ f := by
        simp only [jweightObj] at hw
        omega
      have hd1 : numDelim (renderObjTail d ms ++ nlC :: (jindent dc ++ cbraceC :: rest)) = true := by
        cases ms with
        | nil => rfl
        | cons m2 ms2 => rfl
      simp only [jparseObjItems]
      rw [strQuote, List.cons_append]
      simp only [if_true]
      rw [List.append_assoc, List.singleton_append, jparseStr_complete]
      simp only []
      rw [show ∀ z, jskipWs (':' :: z) = ':' :: z from fun z => rfl]
      simp only []
      rw [show ∀ z, jskipWs (' ' :: z) = jskipWs z from fun z => rfl]
      rw [jskipWs_render, ihP v d _ hwv hd1]
      simp only []
      cases ms with
      | nil =>
        simp only [renderObjTail, List.nil_append]
        rw [jskipWs_nl, jskipWs_indent]
        rfl
      | cons m2 ms2 =>
        obtain ⟨k2, v2⟩ := m2
        have hwo2 : jweightObj ((k2, v2) :: ms2) ≤ f := by
          simp only [jweightObj] at hw ⊢
          omega
        simp only [renderObjTail, List.cons_append, List.append_assoc]
        rw [show ∀ z, jskipWs (',' :: z) = ',' :: z from fun z => rfl]
        simp only []
        rw [jskipWs_nl, jskipWs_indent]
        rw [show ∀ z, jskipWs (strQuote k2 ++ z) = strQuote k2 ++ z from fun z => rfl]
        have h := ihR k2 v2 ms2 d dc rest hwo2 hrest
        simp only [strQuote, List.cons_append, List.append_assoc,
          List.singleton_append, List.nil_append] at h ⊢
        rw [h]
        rfl

mutual

theorem jweight_le_len : ∀ (d : Nat) (v : JVal), jweight v ≤ (renderVal d v).length
  | _, .jnull => by simp [jweight, renderVal]
  | _, .jbool true => by simp [jweight, renderVal]
  | _, .jbool false => by simp [jweight, renderVal]
  | _, .jint i => by
    simp only [jweight, renderVal]
    obtain ⟨c, t, heq, _⟩ := intStr_head i
    rw [heq]
    simp
  | _, .jstr s => by simp [jweight, renderVal, strQuote]
  | _, .jarr [] => by simp [jweight, jweightArr, renderVal]
  | d, .jarr (x :: xs) => by
    have h1 := jweight_le_len (d + 1) x
    have h2 := jweightArr_le_len (d + 1) xs
    simp only [jweight, jweightArr, renderVal, List.length_cons, List.length_append]
    simp only [List.length_cons, List.length_nil]
    omega
  | _, .jobj [] => by simp [jweight, jweightObj, renderVal]
  | d, .jobj (m :: ms) => by
    have h1 := jweight_le_len (d + 1) m.2
    have h2 := jweightObj_le_len (d + 1) ms
    simp only [jweight, jweightObj, renderVal, List.length_cons, List.length_append]
    simp only [List.length_cons, List.length_nil]
    omega

theorem jweightArr_le_len : ∀ (d : Nat) (xs : List JVal), jweightArr xs ≤ (renderArrTail d xs).length
  | _, [] => by simp [jweightArr, renderArrTail]
  | d, x :: xs => by
    have h1 := jweight_le_len d x
    have h2 := jweightArr_le_len d xs
    simp only [jweightArr, renderArrTail, List.length_cons, List.length_append]
    omega

theorem jweightObj_le_len : ∀ (d : Nat) (ms : List (Str × JVal)),
    jweightObj ms ≤ (renderObjTail d ms).length
  | _, [] => by simp [jweightObj, renderObjTail]
  | d, m :: ms => by
    have h1 := jweight_le_len d m.2
    have h2 := jweightObj_le_len d ms
    simp only [jweightObj, renderObjTail, List.length_cons, List.length_append]
    omega

end

/-- `json.loads` recovers every document `json.dump(..., indent=2,
ensure_ascii=False)` writes. -/
theorem pyLoads_pyDumps (v : JVal) : pyLoads (pyDumps v) = some v := by
  rw [pyLoads, pyDumps]
  have hskip : jskipWs (renderVal 0 v) = renderVal 0 v := by
    have h := jskipWs_render 0 v []
    simpa using h
  rw [hskip]
  have hw : jweight v ≤ (renderVal 0 v).length + 1 := by
    have := jweight_le_len 0 v
    omega
  have hP := (jcomplete ((renderVal 0 v).length + 1)).1 v 0 [] hw rfl
  rw [List.append_nil] at hP
  rw [hP]
  rfl

/-- C4: saving a team-state snapshot for a project and loading it back
yields the snapshot unchanged (and a successful, info-logged load): the
pretty-printed JSON document written by `save_state` parses back to a
structurally equal value. -/
theorem c4_roundtrip (store : StateStore) (pid : Nat) (s : JVal) :
    loadState (saveState store pid s) pid = ((true, some s), LogLevel.info) := by
  rw [loadState, saveState]
  simp only [if_true]
  rw [pyLoads_pyDumps]

/-! ## C6: idempotence of the style patcher

Machinery: fuel invariance and step equations for the `re.sub` scan, scan
transfer along match-free prefixes, and the match at a freshly written
attribute. -/

theorem findStyleGroup_of_noMatch : ∀ {s : Str}, noStyleMatch s → findStyleGroup s = none := by
  intro s
  induction s with
  | nil => intro _; rfl
  | cons c t ih =>
    intro h
    rw [findStyleGroup]
    simp only [show styleAttrAt (c :: t) = none from by simpa using h 0]
    exact ih (fun i => by simpa using h (i + 1))

theorem dinsert_mem_self : ∀ {m : List (Str × Str)} {k v : Str}, nodupKeys m →
    (k, v) ∈ m → dinsert m k v = m := by
  intro m
  induction m with
  | nil => intro k v _ hm; simp at hm
  | cons p t ih =>
    intro k v hnd hm
    obtain ⟨k0, v0⟩ := p
    rw [nodupKeys, List.map_cons, List.nodup_cons] at hnd
    by_cases h : k0 = k
    · subst h
      rw [dinsert, if_pos rfl]
      rcases List.mem_cons.mp hm with h1 | h2
      · rw [show v0 = v from (Prod.mk.injEq _ _ _ _ |>.mp h1.symm).2]
      · exact absurd (List.mem_map.mpr ⟨(k0, v), h2, rfl⟩) hnd.1
    · rw [dinsert, if_neg h]
      rcases List.mem_cons.mp hm with h1 | h2
      · exact absurd (Prod.mk.injEq _ _ _ _ |>.mp h1.symm).1 h
      · rw [ih hnd.2 h2]

theorem dictUpdate_mem_self : ∀ (adds m : List (Str × Str)), nodupKeys m →
    (∀ p ∈ adds, p ∈ m) → dictUpdate m adds = m := by
  intro adds
  induction adds with
  | nil => intro m _ _; rfl
  | cons p t ih =>
    intro m hnd hmem
    rw [show dictUpdate m (p :: t) = dictUpdate (dinsert m p.1 p.2) t from rfl]
    rw [dinsert_mem_self hnd (by
      rw [show (p.1, p.2) = p from rfl]
      exact hmem p (List.mem_cons_self _ _))]
    exact ih m hnd (fun q hq => hmem q (List.mem_cons_of_mem _ hq))

theorem dinsert_ne_nil (m : List (Str × Str)) (k v : Str) : dinsert m k v ≠ [] := by
  cases m with
  | nil => simp [dinsert]
  | cons p t =>
    obtain ⟨k0, v0⟩ := p
    rw [dinsert]
    split <;> simp

theorem dictUpdate_ne_nil : ∀ (adds m : List (Str × Str)), m ≠ [] →
    dictUpdate m adds ≠ [] := by
  intro adds
  induction adds with
  | nil => intro m h; exact h
  | cons p t ih =>
    intro m _
    exact ih (dinsert m p.1 p.2) (dinsert_ne_nil m p.1 p.2)

theorem reactStylesOf_ne_nil {delta : List (Str × Str)} (h : delta ≠ []) :
    reactStylesOf delta ≠ [] := by
  cases delta with
  | nil => exact absurd rfl h
  | cons d ds =>
    rw [reactStylesOf, List.map_cons, dictOfPairs]
    rw [show dictUpdate [] ((toCamel d.1, d.2) :: List.map (fun p => (toCamel p.1, p.2)) ds) =
      dictUpdate (dinsert [] (toCamel d.1) d.2) (List.map (fun p => (toCamel p.1, p.2)) ds)
      from rfl]
    exact dictUpdate_ne_nil _ _ (dinsert_ne_nil _ _ _)

theorem styleWrap_styleAttrOf (m : List (Str × Str)) :
    styleAttrOf m = styleWrap (styleStringOf m) := rfl

end Claims
